import Mathlib

/-!
Verification development for the marshaltools concurrent time-windowed
candidate retrieval engine: TimeWindower, Fetcher (pagination bisection),
Scheduler (worker pool with retry), and Merger, together with the
`get_candidates` / `query_candidate_page` entry points.

The repository ships only the example notebook and the README; the engine
itself is modelled from the specification, faithful to its words (§3 data
model, §4 component design, §8 testable properties).
-/

namespace Marshaltools

/-- Modelled from the spec: a Candidate record (§3 data model) with unique
`id`, sky coordinates, last-modified timestamp, saved/classification status
and program identifier.  Coordinates are scaled integers, the status an
enumerated code, timestamps in seconds. -/
@[ext] structure Candidate where
  id : Nat
  ra : Int
  dec : Int
  lastModified : Nat
  status : Nat
  programId : Nat
deriving DecidableEq, Repr

/-- Modelled from the spec: a time window, the half-open interval
`[start, stop)` (§3, `TimeWindow`), time in seconds. -/
@[ext] structure TimeWindow where
  start : Nat
  stop : Nat
deriving DecidableEq, Repr

/-- Modelled from the spec: the stable total tie-break key of the Merger
(§4.5): candidates are compared by last-modified timestamp first, and ties
broken by a fixed lexicographic comparison of the remaining fields, never by
arrival order. `candLexProp a b` means `a` precedes-or-equals `b`. -/
def candLexProp (a b : Candidate) : Prop :=
  a.lastModified < b.lastModified ∨ (a.lastModified = b.lastModified ∧
  (a.id < b.id ∨ (a.id = b.id ∧
  (a.ra < b.ra ∨ (a.ra = b.ra ∧
  (a.dec < b.dec ∨ (a.dec = b.dec ∧
  (a.status < b.status ∨ (a.status = b.status ∧
  a.programId ≤ b.programId)))))))))

instance (a b : Candidate) : Decidable (candLexProp a b) := by
  unfold candLexProp; infer_instance

/-- Modelled from the spec: the Merger's conflict resolution (§4.5) — keep
the copy with the more recent last-modified timestamp, ties broken by the
fixed deterministic key. -/
def resolve (a b : Candidate) : Candidate :=
  if candLexProp a b then b else a

theorem candLexProp_total (a b : Candidate) : candLexProp a b ∨ candLexProp b a := by
  simp only [candLexProp]; omega

theorem candLexProp_antisymm {a b : Candidate}
    (h1 : candLexProp a b) (h2 : candLexProp b a) : a = b := by
  simp only [candLexProp] at h1 h2
  ext <;> omega

theorem candLexProp_trans {a b c : Candidate}
    (h1 : candLexProp a b) (h2 : candLexProp b c) : candLexProp a c := by
  simp only [candLexProp] at h1 h2 ⊢
  omega

theorem resolve_comm (a b : Candidate) : resolve a b = resolve b a := by
  unfold resolve
  by_cases h1 : candLexProp a b <;> by_cases h2 : candLexProp b a <;>
    simp [h1, h2]
  · exact (candLexProp_antisymm h1 h2).symm
  · rcases candLexProp_total a b with h | h <;> exact absurd h (by assumption)

theorem resolve_assoc (a b c : Candidate) :
    resolve (resolve a b) c = resolve a (resolve b c) := by
  unfold resolve
  by_cases hab : candLexProp a b <;> by_cases hbc : candLexProp b c <;>
    simp [hab, hbc]
  · by_cases hac : candLexProp a c <;> simp [hac]
    exact absurd (candLexProp_trans hab hbc) hac
  · by_cases hac : candLexProp a c <;> simp [hac]
    have hba : candLexProp b a := (candLexProp_total a b).resolve_left hab
    have hcb : candLexProp c b := (candLexProp_total b c).resolve_left hbc
    have hca : candLexProp c a := candLexProp_trans hcb hba
    exact (candLexProp_antisymm hac hca).symm

theorem resolve_eq_or (a b : Candidate) : resolve a b = a ∨ resolve a b = b := by
  unfold resolve
  by_cases h : candLexProp a b <;> simp [h]

theorem resolve_id {a b : Candidate} (h : a.id = b.id) : (resolve a b).id = a.id := by
  rcases resolve_eq_or a b with h' | h' <;> rw [h']
  exact h.symm

theorem resolve_of_lt {a b : Candidate} (h : a.lastModified < b.lastModified) :
    resolve a b = b := by
  unfold resolve
  have : candLexProp a b := Or.inl h
  simp [this]

theorem resolve_of_gt {a b : Candidate} (h : b.lastModified < a.lastModified) :
    resolve a b = a := by
  unfold resolve
  have : ¬ candLexProp a b := by simp only [candLexProp]; omega
  simp [this]

/-- Modelled from the spec: the Merger's insertion into the id-sorted
CandidateSet (§4.5): if the id is not yet present, insert; if present,
resolve the collision with `resolve`.  The list is kept sorted by id,
giving the deterministic iteration order of the CandidateSet. -/
def insertCand (c : Candidate) : List Candidate → List Candidate
  | [] => [c]
  | d :: ds =>
    if c.id < d.id then c :: d :: ds
    else if d.id < c.id then d :: insertCand c ds
    else resolve d c :: ds

/-- Modelled from the spec: the Merger (§4.5) — reduce a stream of fetched
candidates into one duplicate-free, id-sorted CandidateSet. -/
def mergeAll (cs : List Candidate) : List Candidate :=
  cs.foldr insertCand []

/-- The CandidateSet invariant: strictly increasing ids. -/
def IdSorted (m : List Candidate) : Prop :=
  m.Pairwise (fun u v => u.id < v.id)

/-- Modelled from the spec: lookup of a candidate id in the CandidateSet. -/
def lookupId (i : Nat) : List Candidate → Option Candidate
  | [] => none
  | d :: ds => if d.id = i then some d else lookupId i ds

theorem mem_map_id_insertCand (c : Candidate) (i : Nat) :
    ∀ m : List Candidate,
      i ∈ (insertCand c m).map Candidate.id ↔ i = c.id ∨ i ∈ m.map Candidate.id := by
  intro m
  induction m with
  | nil => simp [insertCand]
  | cons d ds ih =>
    rcases Nat.lt_trichotomy c.id d.id with h | h | h
    · have h1 : ¬ d.id < c.id := by omega
      simp [insertCand, h, h1]
    · have h1 : ¬ c.id < d.id := by omega
      have h2 : ¬ d.id < c.id := by omega
      have h3 : (resolve d c).id = d.id := resolve_id h.symm
      simp only [insertCand, if_neg h1, if_neg h2, List.map_cons, List.mem_cons, h3]
      rw [h]
      tauto
    · have h1 : ¬ c.id < d.id := by omega
      simp only [insertCand, if_neg h1, if_pos h, List.map_cons, List.mem_cons, ih]
      tauto

theorem idSorted_insertCand (c : Candidate) :
    ∀ {m : List Candidate}, IdSorted m → IdSorted (insertCand c m) := by
  intro m
  induction m with
  | nil => intro _; simp [insertCand, IdSorted]
  | cons d ds ih =>
    intro hm
    rw [IdSorted, List.pairwise_cons] at hm
    obtain ⟨hd, hds⟩ := hm
    rcases Nat.lt_trichotomy c.id d.id with h | h | h
    · have h1 : ¬ d.id < c.id := by omega
      rw [IdSorted]
      simp only [insertCand, if_pos h, List.pairwise_cons, List.mem_cons]
      refine ⟨?_, ?_, hds⟩
      · rintro x (rfl | hx)
        · exact h
        · exact h.trans (hd x hx)
      · exact hd
    · have h1 : ¬ c.id < d.id := by omega
      have h3 : (resolve d c).id = d.id := resolve_id h.symm
      rw [IdSorted]
      simp only [insertCand, if_neg h1, if_neg (by omega : ¬ d.id < c.id),
        List.pairwise_cons, h3]
      exact ⟨hd, hds⟩
    · have h1 : ¬ c.id < d.id := by omega
      rw [IdSorted]
      simp only [insertCand, if_neg h1, if_pos h, List.pairwise_cons]
      refine ⟨?_, ih hds⟩
      intro x hx
      have hx' : x.id ∈ (insertCand c ds).map Candidate.id :=
        List.mem_map_of_mem Candidate.id hx
      rw [mem_map_id_insertCand] at hx'
      rcases hx' with hx' | hx'
      · omega
      · obtain ⟨y, hy, hyx⟩ := List.mem_map.mp hx'
        have := hd y hy
        omega

theorem insertCand_comm (a b : Candidate) :
    ∀ m : List Candidate, insertCand a (insertCand b m) = insertCand b (insertCand a m) := by
  intro m
  induction m with
  | nil =>
    rcases Nat.lt_trichotomy a.id b.id with h | h | h
    · have h1 : ¬ b.id < a.id := by omega
      simp [insertCand, h, h1]
    · have h1 : ¬ a.id < b.id := by omega
      have h2 : ¬ b.id < a.id := by omega
      simp [insertCand, h1, h2, resolve_comm b a]
    · have h1 : ¬ a.id < b.id := by omega
      simp [insertCand, h, h1]
  | cons d ds ih =>
    rcases Nat.lt_trichotomy b.id d.id with hb | hb | hb <;>
      rcases Nat.lt_trichotomy a.id d.id with ha | ha | ha
    · -- b < d, a < d
      rcases Nat.lt_trichotomy a.id b.id with hab | hab | hab
      · have h1 : ¬ b.id < a.id := by omega
        simp [insertCand, ha, hb, hab, h1]
      · have h1 : ¬ a.id < b.id := by omega
        have h2 : ¬ b.id < a.id := by omega
        simp [insertCand, ha, hb, h1, h2, resolve_comm b a]
      · have h1 : ¬ a.id < b.id := by omega
        simp [insertCand, ha, hb, hab, h1]
    · -- b < d, a = d
      have hida : (resolve d a).id = d.id := resolve_id (by omega)
      have h1 : ¬ a.id < b.id := by omega
      have h2 : b.id < a.id := by omega
      have h3 : ¬ a.id < d.id := by omega
      have h4 : ¬ d.id < a.id := by omega
      simp [insertCand, hb, h1, h2, h3, h4, hida]
    · -- b < d, d < a
      have h1 : ¬ a.id < b.id := by omega
      have h2 : b.id < a.id := by omega
      have h3 : ¬ a.id < d.id := by omega
      simp [insertCand, hb, ha, h1, h2, h3]
    · -- b = d, a < d
      have hidb : (resolve d b).id = d.id := resolve_id (by omega)
      have h1 : ¬ b.id < d.id := by omega
      have h2 : ¬ d.id < b.id := by omega
      have h3 : a.id < b.id := by omega
      have h4 : ¬ b.id < a.id := by omega
      simp [insertCand, ha, h1, h2, h3, h4, hidb]
    · -- b = d, a = d
      have hidb : (resolve d b).id = d.id := resolve_id (by omega)
      have hida : (resolve d a).id = d.id := resolve_id (by omega)
      have key : resolve (resolve d b) a = resolve (resolve d a) b := by
        rw [resolve_assoc, resolve_comm b a, ← resolve_assoc]
      have h1 : ¬ b.id < d.id := by omega
      have h2 : ¬ d.id < b.id := by omega
      have h3 : ¬ a.id < d.id := by omega
      have h4 : ¬ d.id < a.id := by omega
      simp [insertCand, h1, h2, h3, h4, hidb, hida, key]
    · -- b = d, d < a
      have hidb : (resolve d b).id = d.id := resolve_id (by omega)
      have h1 : ¬ b.id < d.id := by omega
      have h2 : ¬ d.id < b.id := by omega
      have h3 : ¬ a.id < d.id := by omega
      have h4 : ¬ a.id < b.id := by omega
      have h5 : b.id < a.id := by omega
      simp [insertCand, ha, h1, h2, h3, h4, h5, hidb]
    · -- d < b, a < d
      have h1 : a.id < b.id := by omega
      have h2 : ¬ b.id < a.id := by omega
      have h3 : ¬ b.id < d.id := by omega
      simp [insertCand, ha, hb, h1, h2, h3]
    · -- d < b, a = d
      have hida : (resolve d a).id = d.id := resolve_id (by omega)
      have h1 : ¬ b.id < d.id := by omega
      have h2 : ¬ a.id < d.id := by omega
      have h3 : ¬ d.id < a.id := by omega
      have h4 : ¬ b.id < a.id := by omega
      have h5 : a.id < b.id := by omega
      simp [insertCand, hb, h1, h2, h3, h4, h5, hida]
    · -- d < b, d < a
      have h1 : ¬ b.id < d.id := by omega
      have h2 : ¬ a.id < d.id := by omega
      simp [insertCand, ha, hb, h1, h2, ih]

theorem mergeAll_cons (c : Candidate) (cs : List Candidate) :
    mergeAll (c :: cs) = insertCand c (mergeAll cs) := rfl

theorem idSorted_mergeAll (cs : List Candidate) : IdSorted (mergeAll cs) := by
  induction cs with
  | nil => simp [mergeAll, IdSorted]
  | cons c cs ih => rw [mergeAll_cons]; exact idSorted_insertCand c ih

theorem mem_map_id_mergeAll (i : Nat) (cs : List Candidate) :
    i ∈ (mergeAll cs).map Candidate.id ↔ i ∈ cs.map Candidate.id := by
  induction cs with
  | nil => simp [mergeAll]
  | cons c cs ih =>
    rw [mergeAll_cons, mem_map_id_insertCand]
    simp [ih]

theorem nodup_map_id_of_idSorted {m : List Candidate} (hm : IdSorted m) :
    (m.map Candidate.id).Nodup := by
  rw [List.Nodup, List.pairwise_map]
  exact hm.imp (fun h => Nat.ne_of_lt h)

theorem mergeAll_perm {cs1 cs2 : List Candidate} (h : cs1.Perm cs2) :
    mergeAll cs1 = mergeAll cs2 := by
  induction h with
  | nil => rfl
  | cons x _ ih => rw [mergeAll_cons, mergeAll_cons, ih]
  | swap x y l => rw [mergeAll_cons, mergeAll_cons, mergeAll_cons, mergeAll_cons,
      insertCand_comm]
  | trans _ _ ih1 ih2 => rw [ih1, ih2]

theorem lookupId_eq {i : Nat} {d : Candidate} :
    ∀ {m : List Candidate}, lookupId i m = some d → d.id = i ∧ d ∈ m := by
  intro m
  induction m with
  | nil => intro h; simp [lookupId] at h
  | cons e es ih =>
    intro h
    by_cases he : e.id = i
    · simp only [lookupId, if_pos he] at h
      obtain rfl := Option.some.inj h
      exact ⟨he, List.mem_cons_self e es⟩
    · simp only [lookupId, if_neg he] at h
      obtain ⟨h1, h2⟩ := ih h
      exact ⟨h1, List.mem_cons_of_mem e h2⟩

theorem lookupId_insertCand_new (c : Candidate) :
    ∀ {m : List Candidate}, c.id ∉ m.map Candidate.id →
      lookupId c.id (insertCand c m) = some c := by
  intro m
  induction m with
  | nil => intro _; simp [insertCand, lookupId]
  | cons d ds ih =>
    intro h
    simp only [List.map_cons, List.mem_cons] at h
    push_neg at h
    obtain ⟨hne, hnds⟩ := h
    rcases Nat.lt_trichotomy c.id d.id with hlt | heq | hgt
    · simp [insertCand, hlt, lookupId]
    · exact absurd heq hne
    · have h1 : ¬ c.id < d.id := by omega
      simp only [insertCand, if_neg h1, if_pos hgt, lookupId,
        if_neg (by omega : ¬ d.id = c.id)]
      exact ih hnds

theorem lookupId_insertCand_dup {c d : Candidate} :
    ∀ {m : List Candidate}, IdSorted m → lookupId c.id m = some d →
      lookupId c.id (insertCand c m) = some (resolve d c) := by
  intro m
  induction m with
  | nil => intro _ h; simp [lookupId] at h
  | cons e es ih =>
    intro hm h
    rw [IdSorted, List.pairwise_cons] at hm
    obtain ⟨he, hes⟩ := hm
    by_cases heq : e.id = c.id
    · simp only [lookupId, if_pos heq] at h
      obtain rfl := Option.some.inj h
      have h1 : ¬ c.id < e.id := by omega
      have h2 : ¬ e.id < c.id := by omega
      have hid : (resolve e c).id = c.id := by rw [resolve_id heq, heq]
      simp only [insertCand, if_neg h1, if_neg h2, lookupId, if_pos hid]
    · simp only [lookupId, if_neg heq] at h
      obtain ⟨hd, hdm⟩ := lookupId_eq h
      have hed : e.id < d.id := he d hdm
      have hgt : e.id < c.id := by omega
      simp only [insertCand, if_neg (by omega : ¬ c.id < e.id), if_pos hgt,
        lookupId, if_neg heq]
      exact ih hes h

/-- Modelled from the spec: the TimeWindower's splitting loop (§4.2),
fuel-indexed for structural recursion.  While more than one window's worth
of time remains, emit a window of exactly `width` and advance; the final
window is truncated to `stop`.  The fuel is an upper bound on the number of
windows; `split` supplies an adequate amount. -/
def splitGo (width : Nat) : Nat → Nat → Nat → List TimeWindow
  | 0, _, _ => []
  | fuel + 1, start, stop =>
    if start < stop then
      if stop ≤ start + width then [⟨start, stop⟩]
      else ⟨start, start + width⟩ :: splitGo width fuel (start + width) stop
    else []

/-- Modelled from the spec: `TimeWindower.split (start, end, width)` (§4.2),
the pure function producing the ordered sequence of sub-windows of
`[start, stop)`.  The fuel bounds the number of emitted windows. -/
def split (start stop width : Nat) : List TimeWindow :=
  splitGo width ((stop - start) / width + 1) start stop

theorem split_fuel_adequate (start stop width : Nat) (hw : 0 < width) :
    stop - start ≤ ((stop - start) / width + 1) * width := by
  have h1 := Nat.div_add_mod (stop - start) width
  have h2 : (stop - start) % width < width := Nat.mod_lt _ hw
  have h3 : ((stop - start) / width + 1) * width
      = (stop - start) / width * width + width := Nat.succ_mul _ _
  have h4 : width * ((stop - start) / width) = (stop - start) / width * width :=
    Nat.mul_comm _ _
  omega

theorem splitGo_cover {width : Nat} (hw : 0 < width) :
    ∀ (fuel start stop : Nat), stop - start ≤ fuel * width →
      ∀ t, (start ≤ t ∧ t < stop) ↔
        ∃ w ∈ splitGo width fuel start stop, w.start ≤ t ∧ t < w.stop := by
  intro fuel
  induction fuel with
  | zero =>
    intro start stop hf t
    rw [Nat.zero_mul] at hf
    constructor
    · intro ht; exact absurd ht (by omega)
    · rintro ⟨w, hwm, _⟩; simp [splitGo] at hwm
  | succ fuel ih =>
    intro start stop hf t
    have hmul : (fuel + 1) * width = fuel * width + width := Nat.succ_mul _ _
    have hf' : stop - (start + width) ≤ fuel * width := by omega
    by_cases h1 : start < stop
    · by_cases h2 : stop ≤ start + width
      · simp only [splitGo, if_pos h1, if_pos h2, List.mem_singleton]
        constructor
        · intro ht; exact ⟨⟨start, stop⟩, rfl, ht⟩
        · rintro ⟨w, rfl, ht⟩; exact ht
      · have hrec := ih (start + width) stop hf' t
        simp only [splitGo, if_pos h1, if_neg h2, List.mem_cons]
        constructor
        · rintro ⟨ht1, ht2⟩
          by_cases ht : t < start + width
          · exact ⟨⟨start, start + width⟩, Or.inl rfl, ht1, ht⟩
          · obtain ⟨w, hw1, hw2⟩ := hrec.mp ⟨by omega, ht2⟩
            exact ⟨w, Or.inr hw1, hw2⟩
        · rintro ⟨w, hw1 | hw1, hw2, hw3⟩
          · subst hw1
            have hw2' : start ≤ t := hw2
            have hw3' : t < start + width := hw3
            omega
          · have := hrec.mpr ⟨w, hw1, hw2, hw3⟩
            omega
    · constructor
      · intro ht; exact absurd ht (by omega)
      · rintro ⟨w, hwm, _⟩; simp [splitGo, h1] at hwm

theorem splitGo_mem_bounds {width : Nat} (hw : 0 < width) :
    ∀ (fuel start stop : Nat), ∀ w ∈ splitGo width fuel start stop,
      start ≤ w.start ∧ w.start < w.stop ∧ w.stop ≤ stop ∧ w.stop - w.start ≤ width := by
  intro fuel
  induction fuel with
  | zero => intro start stop w hwm; simp [splitGo] at hwm
  | succ fuel ih =>
    intro start stop w hwm
    by_cases h1 : start < stop
    · by_cases h2 : stop ≤ start + width
      · simp only [splitGo, if_pos h1, if_pos h2, List.mem_singleton] at hwm
        subst hwm
        exact ⟨Nat.le_refl _, h1, Nat.le_refl _, show stop - start ≤ width by omega⟩
      · simp only [splitGo, if_pos h1, if_neg h2, List.mem_cons] at hwm
        rcases hwm with rfl | hwm
        · exact ⟨Nat.le_refl _, show start < start + width by omega,
            show start + width ≤ stop by omega,
            show start + width - start ≤ width by omega⟩
        · obtain ⟨b1, b2, b3, b4⟩ := ih (start + width) stop w hwm
          exact ⟨by omega, b2, b3, b4⟩
    · simp [splitGo, h1] at hwm

theorem splitGo_head (width fuel start stop : Nat) (hf : stop - start ≤ fuel * width)
    (h1 : start < stop) :
    ∃ s ws, splitGo width fuel start stop = TimeWindow.mk start s :: ws := by
  cases fuel with
  | zero => rw [Nat.zero_mul] at hf; omega
  | succ fuel =>
    by_cases h2 : stop ≤ start + width
    · exact ⟨stop, [], by simp [splitGo, h1, h2]⟩
    · exact ⟨start + width, splitGo width fuel (start + width) stop,
        by simp [splitGo, h1, h2]⟩

theorem splitGo_chain {width : Nat} (hw : 0 < width) :
    ∀ (fuel start stop : Nat), stop - start ≤ fuel * width →
      (splitGo width fuel start stop).Chain' (fun u v => u.stop = v.start) := by
  intro fuel
  induction fuel with
  | zero => intro start stop _; simp [splitGo]
  | succ fuel ih =>
    intro start stop hf
    have hmul : (fuel + 1) * width = fuel * width + width := Nat.succ_mul _ _
    have hf' : stop - (start + width) ≤ fuel * width := by omega
    by_cases h1 : start < stop
    · by_cases h2 : stop ≤ start + width
      · simp [splitGo, h1, h2]
      · obtain ⟨s, ws, heq⟩ := splitGo_head width fuel (start + width) stop
          hf' (by omega)
        simp only [splitGo, if_pos h1, if_neg h2, heq, List.chain'_cons]
        refine ⟨by trivial, ?_⟩
        have := ih (start + width) stop hf'
        rw [heq] at this
        exact this
    · simp [splitGo, h1]

theorem splitGo_pairwise {width : Nat} (hw : 0 < width) :
    ∀ (fuel start stop : Nat),
      (splitGo width fuel start stop).Pairwise (fun u v => u.stop ≤ v.start) := by
  intro fuel
  induction fuel with
  | zero => intro start stop; simp [splitGo]
  | succ fuel ih =>
    intro start stop
    by_cases h1 : start < stop
    · by_cases h2 : stop ≤ start + width
      · simp [splitGo, h1, h2]
      · simp only [splitGo, if_pos h1, if_neg h2, List.pairwise_cons]
        refine ⟨?_, ih (start + width) stop⟩
        intro w hwm
        have := (splitGo_mem_bounds hw fuel (start + width) stop w hwm).1
        simpa using this
    · simp [splitGo, h1]

theorem splitGo_last {width : Nat} (hw : 0 < width) :
    ∀ (fuel start stop : Nat), stop - start ≤ fuel * width → start < stop →
      ∃ wl, (splitGo width fuel start stop).getLast? = some wl ∧ wl.stop = stop ∧
        wl.stop - wl.start ≤ width := by
  intro fuel
  induction fuel with
  | zero => intro start stop hf h1; rw [Nat.zero_mul] at hf; omega
  | succ fuel ih =>
    intro start stop hf h1
    have hmul : (fuel + 1) * width = fuel * width + width := Nat.succ_mul _ _
    have hf' : stop - (start + width) ≤ fuel * width := by omega
    by_cases h2 : stop ≤ start + width
    · refine ⟨⟨start, stop⟩, ?_, rfl, show stop - start ≤ width by omega⟩
      simp [splitGo, h1, h2]
    · obtain ⟨wl, hwl, hstop, hlen⟩ := ih (start + width) stop hf' (by omega)
      refine ⟨wl, ?_, hstop, hlen⟩
      obtain ⟨s, ws, heq⟩ := splitGo_head width fuel (start + width) stop
        hf' (by omega)
      rw [heq] at hwl
      simp only [splitGo, if_pos h1, if_neg h2, heq, List.getLast?_cons_cons]
      exact hwl

theorem splitGo_dropLast_width {width : Nat} (hw : 0 < width) :
    ∀ (fuel start stop : Nat), stop - start ≤ fuel * width →
      ∀ w ∈ (splitGo width fuel start stop).dropLast, w.stop - w.start = width := by
  intro fuel
  induction fuel with
  | zero => intro start stop _ w hwm; simp [splitGo] at hwm
  | succ fuel ih =>
    intro start stop hf w hwm
    have hmul : (fuel + 1) * width = fuel * width + width := Nat.succ_mul _ _
    have hf' : stop - (start + width) ≤ fuel * width := by omega
    by_cases h1 : start < stop
    · by_cases h2 : stop ≤ start + width
      · simp [splitGo, h1, h2] at hwm
      · obtain ⟨s, ws, heq⟩ := splitGo_head width fuel (start + width) stop
          hf' (by omega)
        simp only [splitGo, if_pos h1, if_neg h2, heq, List.dropLast_cons₂,
          List.mem_cons] at hwm
        rcases hwm with rfl | hwm
        · simp
        · have := ih (start + width) stop hf' w (by rw [heq]; exact hwm)
          exact this
    · simp [splitGo, h1] at hwm

theorem split_single {start stop width : Nat} (h1 : start < stop)
    (h2 : stop ≤ start + width) : split start stop width = [⟨start, stop⟩] := by
  rw [split]
  simp [splitGo, h1, h2]

theorem split_cover {start stop width : Nat} (hw : 0 < width) (t : Nat) :
    (start ≤ t ∧ t < stop) ↔ ∃ w ∈ split start stop width, w.start ≤ t ∧ t < w.stop :=
  splitGo_cover hw ((stop - start) / width + 1) start stop
    (split_fuel_adequate start stop width hw) t

/-- Modelled from the spec: the Fetcher's pagination-truncation policy
(§4.3), fuel-indexed.  `q start stop` is the remote endpoint's raw
(possibly silently truncated) response for the window `[start, stop)`;
`thresh` is the truncation-suspicion threshold and `floor` the bisection
floor width.  A raw count below the threshold is trusted; otherwise the
window is bisected at its midpoint into two equal halves, both halves are
fetched recursively and their candidates and failed sub-windows
concatenated; a window at the floor width that still looks truncated is a
terminal truncation failure for that sub-window.  `none` marks exhausted
fuel; `fetchWindow` supplies enough fuel that this never happens. -/
def fetchGo (q : Nat → Nat → List Candidate) (thresh floor : Nat) :
    Nat → Nat → Nat → Option (List Candidate × List TimeWindow)
  | 0, _, _ => none
  | fuel + 1, start, stop =>
    let res := q start stop
    if res.length < thresh then some (res, [])
    else if stop - start ≤ floor then some ([], [⟨start, stop⟩])
    else
      let mid := (start + stop) / 2
      match fetchGo q thresh floor fuel start mid, fetchGo q thresh floor fuel mid stop with
      | some l, some r => some (l.1 ++ r.1, l.2 ++ r.2)
      | _, _ => none

/-- Modelled from the spec: `Fetcher.fetch` for one window (§4.3), run with
enough fuel for the bisection recursion to reach the floor width. -/
def fetchWindow (q : Nat → Nat → List Candidate) (thresh floor start stop : Nat) :
    Option (List Candidate × List TimeWindow) :=
  fetchGo q thresh floor (stop - start + 1) start stop

theorem fetchGo_succ (q : Nat → Nat → List Candidate) (thresh floor fuel start stop : Nat) :
    fetchGo q thresh floor (fuel + 1) start stop =
      if (q start stop).length < thresh then some (q start stop, [])
      else if stop - start ≤ floor then some ([], [⟨start, stop⟩])
      else
        match fetchGo q thresh floor fuel start ((start + stop) / 2),
            fetchGo q thresh floor fuel ((start + stop) / 2) stop with
        | some l, some r => some (l.1 ++ r.1, l.2 ++ r.2)
        | _, _ => none := rfl

theorem fetchGo_isSome {q : Nat → Nat → List Candidate} {thresh floor : Nat}
    (hF : 0 < floor) :
    ∀ (fuel start stop : Nat), stop - start ≤ 2 ^ fuel * floor →
      (fetchGo q thresh floor (fuel + 1) start stop).isSome = true := by
  intro fuel
  induction fuel with
  | zero =>
    intro start stop hspan
    rw [pow_zero, one_mul] at hspan
    rw [fetchGo_succ]
    by_cases hlen : (q start stop).length < thresh
    · simp [hlen]
    · simp [hlen, hspan]
  | succ fuel ih =>
    intro start stop hspan
    rw [fetchGo_succ]
    by_cases hlen : (q start stop).length < thresh
    · simp [hlen]
    · by_cases hfl : stop - start ≤ floor
      · simp [hlen, hfl]
      · have hk : 2 ^ (fuel + 1) * floor = 2 ^ fuel * floor + 2 ^ fuel * floor := by ring
        rw [hk] at hspan
        have h1 := ih start ((start + stop) / 2) (by omega)
        have h2 := ih ((start + stop) / 2) stop (by omega)
        obtain ⟨l, hl⟩ := Option.isSome_iff_exists.mp h1
        obtain ⟨r, hr⟩ := Option.isSome_iff_exists.mp h2
        rw [if_neg hlen, if_neg hfl, hl, hr]
        rfl

theorem fetchWindow_isSome {q : Nat → Nat → List Candidate} {thresh floor : Nat}
    (hF : 0 < floor) (start stop : Nat) :
    (fetchWindow q thresh floor start stop).isSome = true := by
  rw [fetchWindow]
  have hpow : stop - start < 2 ^ (stop - start) := Nat.lt_two_pow (stop - start)
  have hmul : 2 ^ (stop - start) * 1 ≤ 2 ^ (stop - start) * floor :=
    Nat.mul_le_mul_left _ hF
  exact fetchGo_isSome hF (stop - start) start stop (by omega)

theorem fetchGo_bisect {q : Nat → Nat → List Candidate} {thresh floor : Nat}
    (fuel start stop : Nat) (hlen : thresh ≤ (q start stop).length)
    (hfl : floor < stop - start) :
    ∀ {l1 l2 : List Candidate} {f1 f2 : List TimeWindow},
      fetchGo q thresh floor fuel start ((start + stop) / 2) = some (l1, f1) →
      fetchGo q thresh floor fuel ((start + stop) / 2) stop = some (l2, f2) →
      fetchGo q thresh floor (fuel + 1) start stop = some (l1 ++ l2, f1 ++ f2) := by
  intro l1 l2 f1 f2 h1 h2
  have hlen' : ¬ (q start stop).length < thresh := by omega
  have hfl' : ¬ stop - start ≤ floor := by omega
  rw [fetchGo_succ, if_neg hlen', if_neg hfl', h1, h2]

theorem fetchGo_floor {q : Nat → Nat → List Candidate} {thresh floor : Nat}
    (fuel start stop : Nat) (hlen : thresh ≤ (q start stop).length)
    (hfl : stop - start ≤ floor) :
    fetchGo q thresh floor (fuel + 1) start stop = some ([], [⟨start, stop⟩]) := by
  have hlen' : ¬ (q start stop).length < thresh := by omega
  rw [fetchGo_succ, if_neg hlen', if_pos hfl]

/-- Modelled from the spec: one worker's retry loop for a single window
(§4.4).  `pending` counts the transient failures the environment will still
produce for this window; each attempt consumes one, and the loop stops at
the first success or when the attempt budget is exhausted. -/
def attemptLoop (result : List Candidate) : Nat → Nat → Option (List Candidate)
  | _, 0 => none
  | 0, _ + 1 => some result
  | pending + 1, budget + 1 => attemptLoop result pending budget

/-- Modelled from the spec: the Scheduler's handling of one window (§4.4):
the Fetcher is attempted up to `maxAttempts + 1` times (the initial try
plus `maxAttempts` re-enqueues); `failures w` is the number of transient
failures the environment produces for `w` before a try would succeed, and
`query w` the candidate list a successful try returns. -/
def runWindow (failures : TimeWindow → Nat) (query : TimeWindow → List Candidate)
    (maxAttempts : Nat) (w : TimeWindow) : Option (List Candidate) :=
  attemptLoop (query w) (failures w) (maxAttempts + 1)

/-- Modelled from the spec: the Scheduler's pass over the window queue
(§4.4): each window's outcome is collected into the success list (in full)
or the permanently-failed window list (contributing no candidates). -/
def runSchedule (failures : TimeWindow → Nat) (query : TimeWindow → List Candidate)
    (maxAttempts : Nat) : List TimeWindow → List (List Candidate) × List TimeWindow
  | [] => ([], [])
  | w :: ws =>
    let r := runSchedule failures query maxAttempts ws
    match runWindow failures query maxAttempts w with
    | some cs => (cs :: r.1, r.2)
    | none => (r.1, w :: r.2)

/-- Concatenation of the per-window candidate lists handed to the Merger. -/
def joinAll : List (List Candidate) → List Candidate
  | [] => []
  | l :: ls => l ++ joinAll ls

/-- Modelled from the spec: the whole-call policy of `getAllCandidates`
(§4.4, §7): run every window, merge the successes into the CandidateSet,
and raise `TotalFailure` (the `Except.error`) only when no window succeeded
and at least one window permanently failed; otherwise return the (possibly
partial) CandidateSet together with the explicit failed-window list. -/
def getAllCandidates (failures : TimeWindow → Nat) (query : TimeWindow → List Candidate)
    (maxAttempts : Nat) (windows : List TimeWindow) :
    Except Unit (List Candidate × List TimeWindow) :=
  let r := runSchedule failures query maxAttempts windows
  if r.1.isEmpty && !r.2.isEmpty then .error ()
  else .ok (mergeAll (joinAll r.1), r.2)

theorem attemptLoop_eq (result : List Candidate) :
    ∀ pending budget : Nat,
      attemptLoop result pending budget = if pending < budget then some result else none := by
  intro pending
  induction pending with
  | zero =>
    intro budget
    cases budget with
    | zero => simp [attemptLoop]
    | succ b => simp [attemptLoop]
  | succ p ih =>
    intro budget
    cases budget with
    | zero => simp [attemptLoop]
    | succ b =>
      rw [show attemptLoop result (p + 1) (b + 1) = attemptLoop result p b from rfl, ih]
      by_cases h : p < b
      · rw [if_pos h, if_pos (by omega)]
      · rw [if_neg h, if_neg (by omega)]

theorem runWindow_eq (failures : TimeWindow → Nat) (query : TimeWindow → List Candidate)
    (maxAttempts : Nat) (w : TimeWindow) :
    runWindow failures query maxAttempts w =
      if failures w ≤ maxAttempts then some (query w) else none := by
  rw [runWindow, attemptLoop_eq]
  by_cases h : failures w ≤ maxAttempts
  · rw [if_pos (by omega), if_pos h]
  · rw [if_neg (by omega), if_neg h]

theorem runSchedule_eq (failures : TimeWindow → Nat) (query : TimeWindow → List Candidate)
    (maxAttempts : Nat) :
    ∀ ws : List TimeWindow,
      runSchedule failures query maxAttempts ws =
        ((ws.filter fun w => decide (failures w ≤ maxAttempts)).map query,
          ws.filter fun w => !decide (failures w ≤ maxAttempts)) := by
  intro ws
  induction ws with
  | nil => rfl
  | cons w ws ih =>
    by_cases h : failures w ≤ maxAttempts
    · simp only [runSchedule, runWindow_eq, if_pos h, ih, List.filter_cons,
        decide_eq_true h, Bool.not_true, List.map_cons]
      simp
    · simp only [runSchedule, runWindow_eq, if_neg h, ih, List.filter_cons,
        decide_eq_false h, Bool.not_false, List.map_cons]
      simp

theorem joinAll_perm : ∀ {ls1 ls2 : List (List Candidate)}, ls1.Perm ls2 →
    (joinAll ls1).Perm (joinAll ls2) := by
  intro ls1 ls2 h
  induction h with
  | nil => exact List.Perm.refl _
  | cons x _ ih => exact ih.append_left x
  | swap x y l =>
    rw [show joinAll (y :: x :: l) = y ++ (x ++ joinAll l) from rfl,
      show joinAll (x :: y :: l) = x ++ (y ++ joinAll l) from rfl,
      ← List.append_assoc, ← List.append_assoc]
    exact (List.perm_append_comm).append_right _
  | trans _ _ ih1 ih2 => exact ih1.trans ih2

/-- Modelled from the spec: days in each month of 2018 (not a leap year);
timestamps in this development count seconds from 2018-01-01 00:00:00. -/
def daysInMonth (month : Nat) : Nat :=
  [31, 28, 31, 30, 31, 30, 31, 31, 30, 31, 30, 31].getD (month - 1) 0

/-- Modelled from the spec: seconds from 2018-01-01 00:00:00 to the given
2018 calendar date and time of day. -/
def toTimestamp (month day hour minute second : Nat) : Nat :=
  (((List.range (month - 1)).map fun m => daysInMonth (m + 1)).sum + (day - 1)) * 86400
    + hour * 3600 + minute * 60 + second

/-- Modelled from the spec: the fixed epoch start 2018-03-01 00:00:00 used
when `start_date` is omitted (the program's earliest meaningful date). -/
def epochStart : Nat := toTimestamp 3 1 0 0 0

/-- Modelled from the spec: the default window width of `get_candidates`,
120 hours (5 days), in seconds. -/
def defaultWidth : Nat := 120 * 3600

/-- Modelled from the spec: the ProgramList object state visible to this
core — the program identifier and the `candidates` attribute that
`get_candidates` fills. -/
structure ProgramList where
  programId : Nat
  candidates : List Candidate
deriving DecidableEq, Repr

/-- Modelled from the spec: `ProgramList.get_candidates` (§6 and the example
notebook): resolve the defaulted `start_date` (epoch start), `end_date`
("now" at call time) and window width (120 h), split the range into
windows, run the scheduler over them, merge the successes, store the
CandidateSet in the object's `candidates` attribute and return it together
with the updated object. -/
def get_candidates (now : Nat) (failures : TimeWindow → Nat)
    (query : TimeWindow → List Candidate) (maxAttempts : Nat) (p : ProgramList)
    (startDate endDate width : Option Nat) : List Candidate × ProgramList :=
  let start := startDate.getD epochStart
  let stop := endDate.getD now
  let dt := width.getD defaultWidth
  let r := runSchedule failures query maxAttempts (split start stop dt)
  let cs := mergeAll (joinAll r.1)
  (cs, ProgramList.mk p.programId cs)

instance (m : List Candidate) : Decidable (IdSorted m) := by
  unfold IdSorted; infer_instance

theorem mem_map_id_joinAll (i : Nat) :
    ∀ ls : List (List Candidate),
      i ∈ (joinAll ls).map Candidate.id ↔ ∃ l ∈ ls, i ∈ l.map Candidate.id := by
  intro ls
  induction ls with
  | nil => simp [joinAll]
  | cons l ls ih =>
    rw [show joinAll (l :: ls) = l ++ joinAll ls from rfl]
    simp only [List.map_append, List.mem_append, ih, List.mem_cons]
    constructor
    · rintro (h | ⟨l', hl', hi⟩)
      · exact ⟨l, Or.inl rfl, h⟩
      · exact ⟨l', Or.inr hl', hi⟩
    · rintro ⟨l', rfl | hl', hi⟩
      · exact Or.inl hi
      · exact Or.inr ⟨l', hl', hi⟩

theorem getAllCandidates_ok_fst {failures : TimeWindow → Nat}
    {query : TimeWindow → List Candidate} {maxAttempts : Nat}
    {ws : List TimeWindow} {p : List Candidate × List TimeWindow}
    (h : getAllCandidates failures query maxAttempts ws = .ok p) :
    p.1 = mergeAll (joinAll (runSchedule failures query maxAttempts ws).1) := by
  simp only [getAllCandidates] at h
  by_cases hc : ((runSchedule failures query maxAttempts ws).1.isEmpty
      && !(runSchedule failures query maxAttempts ws).2.isEmpty) = true
  · rw [if_pos hc] at h
    cases h
  · rw [if_neg hc] at h
    obtain rfl := Except.ok.inj h
    rfl

/-- Sample data used to instantiate the claim theorems on concrete inputs. -/
def sampleA : Candidate := ⟨1, 10, -20, 100, 0, 3⟩

/-- Sample data: a second candidate with a distinct id. -/
def sampleB : Candidate := ⟨2, 11, 21, 200, 1, 3⟩

/-- Sample data: a candidate sharing `sampleA`'s id with a more recent
last-modified timestamp. -/
def sampleC : Candidate := ⟨1, 12, 22, 150, 0, 3⟩

/-- Sample data: a concrete time window. -/
def sampleWindow : TimeWindow := ⟨0, 10⟩

/-- Sample data: a raw endpoint whose response for a window of span at least
2 meets a truncation threshold of 2. -/
def sampleQuery : Nat → Nat → List Candidate :=
  fun s e => if 2 ≤ e - s then [sampleA, sampleB] else [sampleA]

/-- Claim C2: for every `(start, end, width)` with `start < end` (width a
positive duration), the ordered window sequence produced by TimeWindower's
split exactly covers the half-open range `[start, end)` — every instant of
the range lies in some window and in no two windows' interiors, consecutive
windows abut with no gap — every window has length exactly `width` except
possibly the last, which is truncated to `end`; and if `end - start <
width` the output is a single window covering the whole range. -/
theorem timeWindower_coverage (start stop width : Nat) (h1 : start < stop)
    (hw : 0 < width) :
    (∀ t, (start ≤ t ∧ t < stop) ↔
        ∃ w ∈ split start stop width, w.start ≤ t ∧ t < w.stop)
    ∧ (split start stop width).Chain' (fun u v => u.stop = v.start)
    ∧ (split start stop width).Pairwise (fun u v => u.stop ≤ v.start)
    ∧ (∀ w ∈ split start stop width, w.start < w.stop ∧ w.stop - w.start ≤ width)
    ∧ (∀ w ∈ (split start stop width).dropLast, w.stop - w.start = width)
    ∧ (∃ wl, (split start stop width).getLast? = some wl ∧ wl.stop = stop ∧
        wl.stop - wl.start ≤ width)
    ∧ (∃ s ws, split start stop width = TimeWindow.mk start s :: ws)
    ∧ (stop - start < width → split start stop width = [⟨start, stop⟩]) := by
  have hfa := split_fuel_adequate start stop width hw
  refine ⟨?_, ?_, ?_, ?_, ?_, ?_, ?_, ?_⟩
  · exact fun t => split_cover hw t
  · exact splitGo_chain hw ((stop - start) / width + 1) start stop hfa
  · exact splitGo_pairwise hw ((stop - start) / width + 1) start stop
  · intro w hwm
    have hb := splitGo_mem_bounds hw ((stop - start) / width + 1) start stop w hwm
    exact ⟨hb.2.1, hb.2.2.2⟩
  · exact splitGo_dropLast_width hw ((stop - start) / width + 1) start stop hfa
  · exact splitGo_last hw ((stop - start) / width + 1) start stop hfa h1
  · exact splitGo_head width ((stop - start) / width + 1) start stop hfa h1
  · intro hsmall
    exact split_single h1 (by omega)

/-- Witness for C2 at the concrete input `(0, 23, 5)`. -/
theorem timeWindower_coverage_witness :
    (0 : Nat) < 23 ∧ (0 : Nat) < 5 ∧
      (split 0 23 5).Pairwise (fun u v => u.stop ≤ v.start) :=
  ⟨by decide, by decide, (timeWindower_coverage 0 23 5 (by decide) (by decide)).2.2.1⟩

/-- Claim C9: the range 2018-08-15 to 2018-09-07 (23 days) with the default
width of 5 days yields exactly 5 windows: four of exactly 5 days and a
final 3-day remainder truncated to the end date. -/
theorem example_scenario_windows :
    split (toTimestamp 8 15 0 0 0) (toTimestamp 9 7 0 0 0) defaultWidth =
      [⟨toTimestamp 8 15 0 0 0, toTimestamp 8 20 0 0 0⟩,
        ⟨toTimestamp 8 20 0 0 0, toTimestamp 8 25 0 0 0⟩,
        ⟨toTimestamp 8 25 0 0 0, toTimestamp 8 30 0 0 0⟩,
        ⟨toTimestamp 8 30 0 0 0, toTimestamp 9 4 0 0 0⟩,
        ⟨toTimestamp 9 4 0 0 0, toTimestamp 9 7 0 0 0⟩]
    ∧ (split (toTimestamp 8 15 0 0 0) (toTimestamp 9 7 0 0 0) defaultWidth).length = 5
    ∧ (∀ w ∈ (split (toTimestamp 8 15 0 0 0) (toTimestamp 9 7 0 0 0)
          defaultWidth).dropLast, w.stop - w.start = defaultWidth)
    ∧ toTimestamp 9 7 0 0 0 - toTimestamp 9 4 0 0 0 = 3 * 86400
    ∧ toTimestamp 9 7 0 0 0 - toTimestamp 8 15 0 0 0 = 23 * 86400
    ∧ defaultWidth = 5 * 86400 := by
  refine ⟨by decide, by decide, by decide, by decide, by decide, by decide⟩

/-- Claim C3: however the per-window FetchResults are ordered, the merged
CandidateSet contains each candidate id exactly once: its ids are
duplicate-free, an id is present iff some window's result returned it, and
each returned id has count exactly one. -/
theorem merger_dedup (results : List (List Candidate)) :
    ((mergeAll (joinAll results)).map Candidate.id).Nodup
    ∧ (∀ i, i ∈ (mergeAll (joinAll results)).map Candidate.id ↔
        ∃ res ∈ results, i ∈ res.map Candidate.id)
    ∧ (∀ i, ((mergeAll (joinAll results)).map Candidate.id).count i
        = if i ∈ (joinAll results).map Candidate.id then 1 else 0) := by
  have hnd : ((mergeAll (joinAll results)).map Candidate.id).Nodup :=
    nodup_map_id_of_idSorted (idSorted_mergeAll _)
  refine ⟨hnd, ?_, ?_⟩
  · intro i
    rw [mem_map_id_mergeAll, mem_map_id_joinAll]
  · intro i
    by_cases hmem : i ∈ (joinAll results).map Candidate.id
    · rw [if_pos hmem]
      exact List.count_eq_one_of_mem hnd ((mem_map_id_mergeAll i _).mpr hmem)
    · rw [if_neg hmem]
      exact List.count_eq_zero_of_not_mem
        (fun hc => hmem ((mem_map_id_mergeAll i _).mp hc))

/-- Claim C7: the Merger inserts a candidate whose id is absent; on an id
collision it keeps the copy with the more recent last-modified timestamp,
ties resolved by the fixed deterministic key `resolve`, which is symmetric
in its arguments and hence independent of arrival order. -/
theorem merger_conflict_resolution (m : List Candidate) (c : Candidate)
    (hm : IdSorted m) :
    (c.id ∉ m.map Candidate.id → lookupId c.id (insertCand c m) = some c)
    ∧ (∀ d, lookupId c.id m = some d →
        lookupId c.id (insertCand c m) = some (resolve d c)
        ∧ (d.lastModified < c.lastModified → resolve d c = c)
        ∧ (c.lastModified < d.lastModified → resolve d c = d)
        ∧ resolve d c = resolve c d) := by
  constructor
  · exact fun hnot => lookupId_insertCand_new c hnot
  · intro d hd
    exact ⟨lookupId_insertCand_dup hm hd, fun hlt => resolve_of_lt hlt,
      fun hgt => resolve_of_gt hgt, resolve_comm d c⟩

/-- Witness for C7 at a concrete sorted map and fresh candidate. -/
theorem merger_conflict_resolution_witness :
    IdSorted [sampleA] ∧
      lookupId sampleB.id (insertCand sampleB [sampleA]) = some sampleB :=
  ⟨by decide, (merger_conflict_resolution [sampleA] sampleB (by decide)).1 (by decide)⟩

theorem getAllCandidates_eq_ok {failures : TimeWindow → Nat}
    {query : TimeWindow → List Candidate} {maxAttempts : Nat}
    {windows : List TimeWindow}
    (h : (runSchedule failures query maxAttempts windows).1 ≠ []) :
    getAllCandidates failures query maxAttempts windows =
      .ok (mergeAll (joinAll (runSchedule failures query maxAttempts windows).1),
        (runSchedule failures query maxAttempts windows).2) := by
  have h1 : (runSchedule failures query maxAttempts windows).1.isEmpty = false := by
    cases hq : (runSchedule failures query maxAttempts windows).1 with
    | nil => exact absurd hq h
    | cons a l => rfl
  have hcond : ((runSchedule failures query maxAttempts windows).1.isEmpty
      && !(runSchedule failures query maxAttempts windows).2.isEmpty) = false := by
    rw [h1]; rfl
  simp only [getAllCandidates]
  rw [hcond, if_neg Bool.false_ne_true]

theorem getAllCandidates_eq_error {failures : TimeWindow → Nat}
    {query : TimeWindow → List Candidate} {maxAttempts : Nat}
    {windows : List TimeWindow}
    (h1 : (runSchedule failures query maxAttempts windows).1 = [])
    (h2 : (runSchedule failures query maxAttempts windows).2 ≠ []) :
    getAllCandidates failures query maxAttempts windows = .error () := by
  have hb1 : (runSchedule failures query maxAttempts windows).1.isEmpty = true := by
    rw [h1]; rfl
  have hb2 : (runSchedule failures query maxAttempts windows).2.isEmpty = false := by
    cases hq : (runSchedule failures query maxAttempts windows).2 with
    | nil => exact absurd hq h2
    | cons a l => rfl
  have hcond : ((runSchedule failures query maxAttempts windows).1.isEmpty
      && !(runSchedule failures query maxAttempts windows).2.isEmpty) = true := by
    rw [hb1, hb2]; rfl
  simp only [getAllCandidates]
  rw [hcond, if_pos rfl]

/-- Claim C1: for a fixed server dataset, the CandidateSet produced by
`getAllCandidates` is identical — same ids, same count, same merged field
values — for every worker count and completion order of the windows: any
two completion orders that are permutations of the same window set merge to
equal CandidateSets, and any two successful `getAllCandidates` calls over
such orders return equal CandidateSets. -/
theorem getAllCandidates_deterministic (failures : TimeWindow → Nat)
    (query : TimeWindow → List Candidate) (maxAttempts : Nat)
    (order1 order2 : List TimeWindow) (hperm : order1.Perm order2) :
    mergeAll (joinAll (runSchedule failures query maxAttempts order1).1) =
      mergeAll (joinAll (runSchedule failures query maxAttempts order2).1)
    ∧ (∀ p1 p2, getAllCandidates failures query maxAttempts order1 = .ok p1 →
        getAllCandidates failures query maxAttempts order2 = .ok p2 →
        p1.1 = p2.1) := by
  have hmain : mergeAll (joinAll (runSchedule failures query maxAttempts order1).1) =
      mergeAll (joinAll (runSchedule failures query maxAttempts order2).1) := by
    rw [runSchedule_eq failures query maxAttempts order1,
      runSchedule_eq failures query maxAttempts order2]
    exact mergeAll_perm (joinAll_perm ((hperm.filter _).map query))
  refine ⟨hmain, fun p1 p2 h1 h2 => ?_⟩
  rw [getAllCandidates_ok_fst h1, getAllCandidates_ok_fst h2]
  exact hmain

/-- Witness for C1 at two concrete completion orders of the same windows. -/
theorem getAllCandidates_deterministic_witness :
    ([⟨0, 5⟩, ⟨5, 10⟩] : List TimeWindow).Perm [⟨5, 10⟩, ⟨0, 5⟩] ∧
      mergeAll (joinAll (runSchedule (fun _ => 0) (fun _ => [sampleA]) 3
          [⟨0, 5⟩, ⟨5, 10⟩]).1) =
        mergeAll (joinAll (runSchedule (fun _ => 0) (fun _ => [sampleA]) 3
          [⟨5, 10⟩, ⟨0, 5⟩]).1) :=
  ⟨List.Perm.swap _ _ _, (getAllCandidates_deterministic (fun _ => 0)
      (fun _ => [sampleA]) 3 [⟨0, 5⟩, ⟨5, 10⟩] [⟨5, 10⟩, ⟨0, 5⟩]
      (List.Perm.swap _ _ _)).1⟩

/-- Claim C4: the Fetcher's pagination-bisection recursion is total and
well-founded: fuel logarithmic in span over the floor width suffices (each
bisection halves the span), a suspicious window above the floor is bisected
at its midpoint into two equal halves whose recursive results are
concatenated, and a window at the floor width that still meets the
truncation threshold is a terminal truncation error for that sub-window
rather than being accepted as complete. -/
theorem fetcher_bisection_total (q : Nat → Nat → List Candidate)
    (thresh floor start stop : Nat) (hF : 0 < floor) :
    (fetchWindow q thresh floor start stop).isSome = true
    ∧ (∀ d, stop - start ≤ 2 ^ d * floor →
        (fetchGo q thresh floor (d + 1) start stop).isSome = true)
    ∧ (∀ fuel, thresh ≤ (q start stop).length → floor < stop - start →
        ∀ l1 l2 f1 f2,
          fetchGo q thresh floor fuel start ((start + stop) / 2) = some (l1, f1) →
          fetchGo q thresh floor fuel ((start + stop) / 2) stop = some (l2, f2) →
          fetchGo q thresh floor (fuel + 1) start stop = some (l1 ++ l2, f1 ++ f2))
    ∧ (∀ fuel, thresh ≤ (q start stop).length → stop - start ≤ floor →
        fetchGo q thresh floor (fuel + 1) start stop = some ([], [⟨start, stop⟩])) := by
  refine ⟨fetchWindow_isSome hF start stop,
    fun d hspan => fetchGo_isSome hF d start stop hspan, ?_, ?_⟩
  · intro fuel hlen hfl l1 l2 f1 f2 hh1 hh2
    exact fetchGo_bisect fuel start stop hlen hfl hh1 hh2
  · intro fuel hlen hfl
    exact fetchGo_floor fuel start stop hlen hfl

/-- Witness for C4 at a concrete endpoint, threshold 2 and floor 1. -/
theorem fetcher_bisection_total_witness :
    (0 : Nat) < 1 ∧ (fetchWindow sampleQuery 2 1 0 4).isSome = true :=
  ⟨by decide, (fetcher_bisection_total sampleQuery 2 1 0 4 (by decide)).1⟩

/-- Claim C5: the whole getAllCandidates call raises the fatal error to the
caller if and only if every window permanently fails; if at least one
window succeeds, the call returns the partial CandidateSet together with
the explicit list of permanently failed windows. -/
theorem getAllCandidates_failure_policy (failures : TimeWindow → Nat)
    (query : TimeWindow → List Candidate) (maxAttempts : Nat)
    (windows : List TimeWindow) (hne : windows ≠ []) :
    (getAllCandidates failures query maxAttempts windows = .error () ↔
      ∀ w ∈ windows, maxAttempts < failures w)
    ∧ ((∃ w ∈ windows, failures w ≤ maxAttempts) →
      getAllCandidates failures query maxAttempts windows =
        .ok (mergeAll (joinAll (runSchedule failures query maxAttempts windows).1),
          windows.filter fun w => !decide (failures w ≤ maxAttempts))) := by
  have hr := runSchedule_eq failures query maxAttempts windows
  have hsucc_ok : ∀ w ∈ windows, failures w ≤ maxAttempts →
      getAllCandidates failures query maxAttempts windows =
        .ok (mergeAll (joinAll (runSchedule failures query maxAttempts windows).1),
          (runSchedule failures query maxAttempts windows).2) := by
    intro w hwm hsucc
    have hmem : w ∈ windows.filter fun v => decide (failures v ≤ maxAttempts) :=
      List.mem_filter.mpr ⟨hwm, by simp [hsucc]⟩
    apply getAllCandidates_eq_ok
    rw [hr]
    exact List.ne_nil_of_mem (List.mem_map_of_mem query hmem)
  constructor
  · constructor
    · intro herr w hwm
      by_contra hc
      have hsucc : failures w ≤ maxAttempts := by omega
      rw [hsucc_ok w hwm hsucc] at herr
      exact Except.noConfusion herr
    · intro hall
      apply getAllCandidates_eq_error
      · rw [hr]
        rw [List.map_eq_nil_iff, List.filter_eq_nil_iff]
        intro w hwm
        have := hall w hwm
        simp
        omega
      · obtain ⟨w0, hw0⟩ := List.exists_mem_of_ne_nil windows hne
        have h0 := hall w0 hw0
        have hmem : w0 ∈ windows.filter fun v => !decide (failures v ≤ maxAttempts) :=
          List.mem_filter.mpr ⟨hw0, by simp; omega⟩
        rw [hr]
        exact List.ne_nil_of_mem hmem
  · rintro ⟨w, hwm, hsucc⟩
    rw [hsucc_ok w hwm hsucc, hr]

/-- Witness for C5 at a single window whose fetch always fails. -/
theorem getAllCandidates_failure_policy_witness :
    ([sampleWindow] : List TimeWindow) ≠ [] ∧
      (getAllCandidates (fun _ => 5) (fun _ => [sampleA]) 2 [sampleWindow] =
          .error () ↔
        ∀ w ∈ ([sampleWindow] : List TimeWindow), 2 < 5) :=
  ⟨by decide, (getAllCandidates_failure_policy (fun _ => 5) (fun _ => [sampleA]) 2
      [sampleWindow] (by decide)).1⟩

/-- Claim C6: a window that fails transiently fewer than maxAttempts times
succeeds and contributes its full candidate list to the merge; a window
failing maxAttempts + 1 times is recorded in the failed-windows list and
contributes zero candidates — every list reaching the merge is the complete
result of a succeeding window, never a partial or corrupt subset. -/
theorem scheduler_retry_bound (failures : TimeWindow → Nat)
    (query : TimeWindow → List Candidate) (maxAttempts : Nat)
    (windows : List TimeWindow) (w : TimeWindow) (hwin : w ∈ windows) :
    (failures w < maxAttempts →
      runWindow failures query maxAttempts w = some (query w)
      ∧ query w ∈ (runSchedule failures query maxAttempts windows).1
      ∧ w ∉ (runSchedule failures query maxAttempts windows).2)
    ∧ (failures w = maxAttempts + 1 →
      runWindow failures query maxAttempts w = none
      ∧ w ∈ (runSchedule failures query maxAttempts windows).2
      ∧ ∀ res ∈ (runSchedule failures query maxAttempts windows).1,
          ∃ v ∈ windows, failures v ≤ maxAttempts ∧ res = query v) := by
  have hr := runSchedule_eq failures query maxAttempts windows
  constructor
  · intro hlt
    have hsucc : failures w ≤ maxAttempts := by omega
    refine ⟨by rw [runWindow_eq, if_pos hsucc], ?_, ?_⟩
    · rw [hr]
      exact List.mem_map_of_mem query (List.mem_filter.mpr ⟨hwin, by simp [hsucc]⟩)
    · rw [hr]
      intro hmem
      have hp := (List.mem_filter.mp hmem).2
      simp [hsucc] at hp
  · intro heq
    have hfail : ¬ failures w ≤ maxAttempts := by omega
    refine ⟨by rw [runWindow_eq, if_neg hfail], ?_, ?_⟩
    · rw [hr]
      exact List.mem_filter.mpr ⟨hwin, by simp; omega⟩
    · intro res hres
      rw [hr] at hres
      obtain ⟨v, hv, rfl⟩ := List.mem_map.mp hres
      have hvf := List.mem_filter.mp hv
      exact ⟨v, hvf.1, by simpa using hvf.2, rfl⟩

/-- Witness for C6 at a single always-succeeding window. -/
theorem scheduler_retry_bound_witness :
    sampleWindow ∈ ([sampleWindow] : List TimeWindow) ∧
      runWindow (fun _ => 0) (fun _ => [sampleA]) 3 sampleWindow = some [sampleA] :=
  ⟨by decide, ((scheduler_retry_bound (fun _ => 0) (fun _ => [sampleA]) 3
      [sampleWindow] sampleWindow (by decide)).1 (by decide)).1⟩

/-- Claim C8: when the caller omits the parameters, the window width
defaults to 120 hours (5 days), the range start defaults to the fixed epoch
start 2018-03-01 00:00:00 (59 days after 2018-01-01, the program's earliest
meaningful date) and the range end defaults to the current time at the
moment of the call. -/
theorem get_candidates_defaults (now : Nat) (failures : TimeWindow → Nat)
    (query : TimeWindow → List Candidate) (maxAttempts : Nat) (p : ProgramList) :
    get_candidates now failures query maxAttempts p none none none =
      get_candidates now failures query maxAttempts p (some epochStart) (some now)
        (some (120 * 3600))
    ∧ epochStart = toTimestamp 3 1 0 0 0
    ∧ defaultWidth = 120 * 3600
    ∧ epochStart = 59 * 86400 :=
  ⟨rfl, rfl, rfl, by decide⟩

/-- Claim C10: `get_candidates` both returns the fetched CandidateSet and
stores it in the ProgramList's `candidates` attribute, leaving the program
identifier untouched, so the caller can read the same set off the object
afterwards; called with no arguments it fetches over the whole default
range `[epochStart, now)`, whose windows cover every instant of it. -/
theorem get_candidates_stores (now : Nat) (failures : TimeWindow → Nat)
    (query : TimeWindow → List Candidate) (maxAttempts : Nat) (p : ProgramList)
    (startDate endDate width : Option Nat) :
    ((get_candidates now failures query maxAttempts p startDate endDate width).2).candidates
      = (get_candidates now failures query maxAttempts p startDate endDate width).1
    ∧ ((get_candidates now failures query maxAttempts p startDate endDate width).2).programId
      = p.programId
    ∧ (get_candidates now failures query maxAttempts p none none none).1 =
        mergeAll (joinAll (runSchedule failures query maxAttempts
          (split epochStart now defaultWidth)).1)
    ∧ (∀ t, (epochStart ≤ t ∧ t < now) ↔
        ∃ w ∈ split epochStart now defaultWidth, w.start ≤ t ∧ t < w.stop) :=
  ⟨rfl, rfl, rfl, fun t => split_cover (by decide) t⟩

end Marshaltools
